import Mathlib

/-!
Verification development for the splitwise-ai repository.

The repository ships a TypeScript/Next.js frontend (under src/frontend and
the unnamed source parts: the API client, layout components, pages) together
with a README describing a Python/FastAPI backend (ledger.py,
reconciliation.py, splitter.py) that is not part of the source tree here.

Frontend code (mock-data.ts, api.ts = part_003/part_004, expenses/page.tsx)
is embedded directly from the source.  The ledger store and the greedy
debt-reconciliation engine live in the absent backend, so they are modelled
from the specification text (sections 3, 4.1, 4.2, 4.3 of spec.md); every
such definition carries a doc comment starting with "Modelled from the
spec:".
-/

namespace SplitwiseAI

/-! ## Data model of the frontend (src/frontend/src/lib/mock-data.ts) -/

/-- The User interface of mock-data.ts: id, name, optional email
(the optional avatar field is never populated and omitted). -/
structure User where
  id : Nat
  name : String
  email : Option String := none
deriving DecidableEq

/-- The Group interface of mock-data.ts. -/
structure Group where
  id : Nat
  name : String
  members : List User
  description : Option String := none
deriving DecidableEq

/-- One element of the splits array of an Expense in mock-data.ts.
Amount values in the mock data are integral rupee amounts; they are embedded
as integers (their numeric values are exact). -/
structure Split where
  user : User
  amount : Int
deriving DecidableEq

/-- The Expense interface of mock-data.ts. -/
structure Expense where
  id : Nat
  description : String
  amount : Int
  currency : String
  payer : User
  participants : List User
  splits : List Split
  date : String
  group : Option Group := none
  isSettled : Bool
deriving DecidableEq

/-- The Balance interface of mock-data.ts: positive = they owe you,
negative = you owe them. -/
structure Balance where
  user : User
  amount : Int
deriving DecidableEq

/-- mockUsers[0] of mock-data.ts. -/
def userYou : User := { id := 1, name := "You", email := some "you@example.com" }

/-- mockUsers[1] of mock-data.ts. -/
def userAmit : User := { id := 2, name := "Amit", email := some "amit@example.com" }

/-- mockUsers[2] of mock-data.ts. -/
def userSarah : User := { id := 3, name := "Sarah", email := some "sarah@example.com" }

/-- mockUsers[3] of mock-data.ts. -/
def userRahul : User := { id := 4, name := "Rahul", email := some "rahul@example.com" }

/-- mockUsers[4] of mock-data.ts. -/
def userPriya : User := { id := 5, name := "Priya", email := some "priya@example.com" }

/-- The mockUsers array of mock-data.ts. -/
def mockUsers : List User := [userYou, userAmit, userSarah, userRahul, userPriya]

/-- The mockGroups array of mock-data.ts. -/
def mockGroups : List Group :=
  [ { id := 1, name := "Roommates", members := [userYou, userAmit, userSarah],
      description := some "Monthly rent and utilities" },
    { id := 2, name := "Goa Trip", members := [userYou, userAmit, userRahul, userPriya],
      description := some "Trip expenses December 2025" },
    { id := 3, name := "Office Lunch", members := [userYou, userSarah, userPriya],
      description := some "Daily lunch splits" } ]

/-- The mockExpenses array of mock-data.ts, transcribed field by field. -/
def mockExpenses : List Expense :=
  [ { id := 1, description := "Dinner at Olive Garden", amount := 2400, currency := "INR",
      payer := userYou, participants := [userYou, userAmit, userSarah],
      splits := [⟨userYou, 800⟩, ⟨userAmit, 800⟩, ⟨userSarah, 800⟩],
      date := "2026-01-08", isSettled := false },
    { id := 2, description := "Groceries", amount := 1500, currency := "INR",
      payer := userAmit, participants := [userYou, userAmit],
      splits := [⟨userYou, 750⟩, ⟨userAmit, 750⟩],
      date := "2026-01-07", group := (mockGroups.get? 0), isSettled := false },
    { id := 3, description := "Uber to Airport", amount := 850, currency := "INR",
      payer := userYou, participants := [userYou, userRahul],
      splits := [⟨userYou, 425⟩, ⟨userRahul, 425⟩],
      date := "2026-01-06", group := (mockGroups.get? 1), isSettled := false },
    { id := 4, description := "Hotel Booking", amount := 12000, currency := "INR",
      payer := userRahul, participants := [userYou, userAmit, userRahul, userPriya],
      splits := [⟨userYou, 3000⟩, ⟨userAmit, 3000⟩, ⟨userRahul, 3000⟩, ⟨userPriya, 3000⟩],
      date := "2026-01-05", group := (mockGroups.get? 1), isSettled := false },
    { id := 5, description := "Pizza Friday", amount := 900, currency := "INR",
      payer := userSarah, participants := [userYou, userSarah, userPriya],
      splits := [⟨userYou, 300⟩, ⟨userSarah, 300⟩, ⟨userPriya, 300⟩],
      date := "2026-01-03", group := (mockGroups.get? 2), isSettled := true } ]

/-- The mockBalances array of mock-data.ts. -/
def mockBalances : List Balance :=
  [ ⟨userAmit, 50⟩, ⟨userSarah, -500⟩, ⟨userRahul, -2575⟩, ⟨userPriya, 300⟩ ]

/-- Sum of the amounts of the splits of an expense. -/
def sumSplits (e : Expense) : Int := (e.splits.map Split.amount).sum

/-! ## Balance totals (getTotalOwedToYou / getTotalYouOwe / getNetBalance)

The three arrow functions at the bottom of mock-data.ts, parameterised by the
balance list they fold over (in the source the list is fixed to mockBalances). -/

/-- Body of getTotalOwedToYou of mock-data.ts:
filter(b such that b.amount greater than 0).reduce(sum of amounts, 0). -/
def totalOwedToYou (bs : List Balance) : Int :=
  ((bs.filter (fun b => 0 < b.amount)).map Balance.amount).sum

/-- Body of getTotalYouOwe of mock-data.ts:
Math.abs(filter(b such that b.amount less than 0).reduce(sum of amounts, 0)). -/
def totalYouOwe (bs : List Balance) : Int :=
  |((bs.filter (fun b => b.amount < 0)).map Balance.amount).sum|

/-- Body of getNetBalance of mock-data.ts: reduce(sum of all amounts, 0). -/
def netBalance (bs : List Balance) : Int := (bs.map Balance.amount).sum

/-- getTotalOwedToYou() of mock-data.ts. -/
def getTotalOwedToYou : Int := totalOwedToYou mockBalances

/-- getTotalYouOwe() of mock-data.ts. -/
def getTotalYouOwe : Int := totalYouOwe mockBalances

/-- getNetBalance() of mock-data.ts. -/
def getNetBalance : Int := netBalance mockBalances

/-! ## Grouping expenses by date (src/frontend/src/app/expenses/page.tsx)

groupExpensesByDate builds a string-keyed object whose keys appear in first
insertion order, pushing each expense onto the bucket of its date, and then
sorts the (date, bucket) entries with the comparator
(a, b) mapped to b.localeCompare(a), i.e. by date string descending.
For the ASCII date keys used here, localeCompare order is the usual
lexicographic order on the character sequences, embedded below on the
underlying character lists. -/

/-- Lexicographic strict order on character lists, mirroring localeCompare
on ASCII strings. -/
def charListLt : List Char → List Char → Bool
  | [], [] => false
  | [], _ :: _ => true
  | _ :: _, [] => false
  | a :: as, b :: bs => if a < b then true else if b < a then false else charListLt as bs

/-- Strict lexicographic order on strings via their character lists. -/
def strLt (a b : String) : Bool := charListLt a.data b.data

/-- Insert one expense into the insertion-ordered date buckets, as the JS
object update groups[date].push(expense) does (new keys go to the end). -/
def addToGroups (gs : List (String × List Expense)) (e : Expense) :
    List (String × List Expense) :=
  match gs with
  | [] => [(e.date, [e])]
  | (d, es) :: rest =>
      if d = e.date then (d, es ++ [e]) :: rest else (d, es) :: addToGroups rest e

/-- groupExpensesByDate of expenses/page.tsx: bucket by date in insertion
order, then sort entries by date descending (b.localeCompare(a)). -/
def groupExpensesByDate (expenses : List Expense) : List (String × List Expense) :=
  (expenses.foldl addToGroups []).mergeSort (fun a b => !(strLt a.1 b.1))

/-! ## API client (src/unnamed/part_003, src/unnamed/part_004)

The ApiClient methods run fetch inside a try/catch.  A call can end in four
ways, embedded by FetchResult: the fetch itself throws (network error), the
response arrives with response.ok false, the response is OK but its JSON
body fails to parse, or a parsed body is obtained.  In part_004 a 401
response additionally logs the user out and throws, which the same catch
block turns into the same fallback value, so the ok flag subsumes it. -/

/-- Outcome of one fetch call as observed by the surrounding try/catch. -/
inductive FetchResult (α : Type)
  | throws
  | response (ok : Bool) (json : Option α)
deriving DecidableEq

/-- One element of owed_to_you / you_owe in the BalanceResponse interface of
part_003/part_004.  The numeric fields are modelled by their exact values;
their TypeScript representation is recorded separately in
boundaryAmountFields. -/
structure BalanceEntry where
  user_id : Nat
  name : String
  amount : Int
deriving DecidableEq

/-- The BalanceResponse interface of part_003/part_004. -/
structure BalanceResponse where
  total_owed_to_you : Int
  total_you_owe : Int
  net_balance : Int
  owed_to_you : List BalanceEntry
  you_owe : List BalanceEntry
deriving DecidableEq

/-- The zero default that ApiClient.getBalance returns from its catch block. -/
def defaultBalanceResponse : BalanceResponse :=
  { total_owed_to_you := 0, total_you_owe := 0, net_balance := 0,
    owed_to_you := [], you_owe := [] }

/-- ApiClient.getBalance of part_003 (and the fetch path of part_004): return
the parsed body on success; every failure (thrown fetch, non-OK status,
unparseable body) is caught, logged, and replaced by the zero default. -/
def getBalance (result : FetchResult BalanceResponse) : BalanceResponse :=
  match result with
  | .throws => defaultBalanceResponse
  | .response ok json =>
      if ok then
        match json with
        | some body => body
        | none => defaultBalanceResponse
      else defaultBalanceResponse

/-- ApiClient.getHistory of part_003/part_004: return the parsed history list
on success; every failure is caught and replaced by the empty history.  The
history items are Record(string, unknown) in the source, so the element type
is a parameter. -/
def getHistory {α : Type} (result : FetchResult (List α)) : List α :=
  match result with
  | .throws => []
  | .response ok json =>
      if ok then
        match json with
        | some body => body
        | none => []
      else []

/-- A FetchResult on which the try block does not produce a parsed body:
the fetch threw, the status was not OK, or the JSON parse failed. -/
def isErrorOutcome {α : Type} : FetchResult α → Prop
  | .throws => True
  | .response ok json => ok = false ∨ json = none

/-- One settlement element of ChatResponse.data.settlements in
part_003/part_004. -/
structure SettlementItem where
  from_name : String
  to_name : String
  amount : Int
deriving DecidableEq

/-- The data field of the ChatResponse interface. -/
structure ChatData where
  expense_id : Option Nat := none
  settlements : Option (List SettlementItem) := none
deriving DecidableEq

/-- The ChatResponse interface of part_003/part_004. -/
structure ChatResponse where
  response : String
  success : Bool
  needs_clarification : Option Bool := none
  data : Option ChatData := none
deriving DecidableEq

/-- The fixed fallback value that ApiClient.sendMessage returns from its
catch block. -/
def fallbackChatResponse : ChatResponse :=
  { response := "Sorry, I couldn\x27t process that. Please try again.",
    success := false }

/-- ApiClient.sendMessage of part_003 (part_004 differs only by routing a 401
through an extra throw that the same catch turns into the same fallback):
POST the message, return the parsed body on success, and turn every failure
into the fixed fallback response instead of rethrowing.  The message only
feeds the request body, so the returned value depends on the fetch outcome. -/
def sendMessage (message : String) (result : FetchResult ChatResponse) : ChatResponse :=
  match message, result with
  | _, .throws => fallbackChatResponse
  | _, .response ok json =>
      if ok then
        match json with
        | some body => body
        | none => fallbackChatResponse
      else fallbackChatResponse

/-! ## Representation of boundary amounts (claim C1)

Every amount-typed field of the external interface, with the numeric
representation its source declaration gives it.  TypeScript number is an
IEEE-754 binary double. -/

/-- Possible wire representations of a monetary amount. -/
inductive AmountRepr
  | float64
  | decimalString
  | intMinorUnits
deriving DecidableEq

/-- The amount-carrying fields of the serialized external interface, with
the representation of each as declared in the source: settlements amounts in
ChatResponse.data (part_003/part_004), the five numeric members of
BalanceResponse (part_003/part_004), and the amount fields of the Expense,
Split and Balance interfaces of mock-data.ts, all declared as the TypeScript
number type. -/
def boundaryAmountFields : List (String × AmountRepr) :=
  [ ("ChatResponse.data.settlements.amount", .float64),
    ("BalanceResponse.total_owed_to_you", .float64),
    ("BalanceResponse.total_you_owe", .float64),
    ("BalanceResponse.net_balance", .float64),
    ("BalanceResponse.owed_to_you.amount", .float64),
    ("BalanceResponse.you_owe.amount", .float64),
    ("Expense.amount", .float64),
    ("Expense.splits.amount", .float64),
    ("Balance.amount", .float64) ]

/-! ## LedgerStore (spec sections 3 and 4.1)

The backend ledger (backend/ledger.py in the README project structure) is
not under src/, so the store is modelled from the spec. -/

/-- Modelled from the spec: the kind field of a LedgerEntry (section 3);
backend models.py / ledger.py are missing from src/. -/
inductive EntryKind
  | expenseShare
  | settlement
  | reversal
deriving DecidableEq

/-- Modelled from the spec: a LedgerEntry (section 3) with unique entry id,
grouping transaction id, debtor, creditor, exact fixed-point amount (embedded
as an integer of minor units), currency, timestamp, kind, optional
description and optional originating transaction reference; backend
models.py / ledger.py are missing from src/. -/
structure LedgerEntry where
  entryId : Nat
  txId : Nat
  debtor : Nat
  creditor : Nat
  amount : Int
  currency : String
  timestamp : Nat
  kind : EntryKind
  description : Option String := none
  origTx : Option Nat := none
deriving DecidableEq

/-- Modelled from the spec: the append-only LedgerStore state (section 4.1)
with its entry list, monotone id counters and the known participants;
backend ledger.py is missing from src/. -/
structure Ledger where
  entries : List LedgerEntry
  nextEntryId : Nat
  nextTxId : Nat
  users : List Nat
deriving DecidableEq

/-- Modelled from the spec: the write-path error taxonomy (section 7);
backend ledger.py is missing from src/. -/
inductive LedgerError
  | InvalidSplit
  | NonPositiveAmount
  | UnknownUser
  | TransactionNotFound
  | AlreadyReversed
deriving DecidableEq

/-- An empty ledger over a given participant set. -/
def emptyLedger (users : List Nat) : Ledger :=
  { entries := [], nextEntryId := 0, nextTxId := 0, users := users }

/-- Modelled from the spec: recordExpense (section 4.1): if the split
amounts do not sum to the total, fail with InvalidSplit writing nothing;
otherwise append, as one transaction, an expense-share entry
(debtor = split user, creditor = payer) for every split whose user is not
the payer; backend ledger.py / splitter.py are missing from src/. -/
def recordExpense (st : Ledger) (description : String) (totalAmount : Int)
    (payerId : Nat) (splits : List (Nat × Int)) : Except LedgerError (Ledger × Nat) :=
  if (splits.map Prod.snd).sum ≠ totalAmount then .error .InvalidSplit
  else
    let tx := st.nextTxId
    let newEntries := ((splits.filter (fun s => s.1 ≠ payerId)).enum).map
      (fun p => { entryId := st.nextEntryId + p.1, txId := tx,
                  debtor := p.2.1, creditor := payerId, amount := p.2.2,
                  currency := "INR", timestamp := tx, kind := EntryKind.expenseShare,
                  description := some description : LedgerEntry })
    .ok ({ st with entries := st.entries ++ newEntries,
                   nextEntryId := st.nextEntryId + newEntries.length,
                   nextTxId := tx + 1 }, tx)

/-- Modelled from the spec: recordSettlement (section 4.1): a single entry
(debtor = fromId, creditor = toId); fails with NonPositiveAmount when the
amount is not positive and with UnknownUser when either id is not a known
participant; backend ledger.py is missing from src/. -/
def recordSettlement (st : Ledger) (fromId toId : Nat) (amount : Int) :
    Except LedgerError (Ledger × Nat) :=
  if amount ≤ 0 then .error .NonPositiveAmount
  else if fromId ∉ st.users ∨ toId ∉ st.users then .error .UnknownUser
  else
    let tx := st.nextTxId
    let entry : LedgerEntry :=
      { entryId := st.nextEntryId, txId := tx, debtor := fromId, creditor := toId,
        amount := amount, currency := "INR", timestamp := tx,
        kind := EntryKind.settlement }
    .ok ({ st with entries := st.entries ++ [entry],
                   nextEntryId := st.nextEntryId + 1, nextTxId := tx + 1 }, tx)

/-- Modelled from the spec: reverseTransaction (section 4.1): for every entry
of the transaction append a debtor/creditor-swapped entry of kind reversal
linked to the original; fails with TransactionNotFound when no entry carries
the id and with AlreadyReversed when a reversal linked to it exists; backend
ledger.py is missing from src/. -/
def reverseTransaction (st : Ledger) (txId : Nat) : Except LedgerError (Ledger × Nat) :=
  let txEntries := st.entries.filter (fun e => e.txId = txId)
  if txEntries.isEmpty then .error .TransactionNotFound
  else if st.entries.any (fun e => e.kind = EntryKind.reversal ∧ e.origTx = some txId) then
    .error .AlreadyReversed
  else
    let tx := st.nextTxId
    let newEntries := (txEntries.enum).map
      (fun p => { entryId := st.nextEntryId + p.1, txId := tx,
                  debtor := p.2.creditor, creditor := p.2.debtor, amount := p.2.amount,
                  currency := p.2.currency, timestamp := tx, kind := EntryKind.reversal,
                  origTx := some txId : LedgerEntry })
    .ok ({ st with entries := st.entries ++ newEntries,
                   nextEntryId := st.nextEntryId + newEntries.length,
                   nextTxId := tx + 1 }, tx)

/-- One structured write command entering the store (section 6). -/
inductive LedgerOp
  | expense (description : String) (totalAmount : Int) (payerId : Nat)
      (splits : List (Nat × Int))
  | settlement (fromId toId : Nat) (amount : Int)
  | reversal (txId : Nat)

/-- Apply one command; a typed failure leaves the store untouched
(all-or-nothing, section 7). -/
def applyOp (st : Ledger) (op : LedgerOp) : Ledger :=
  match op with
  | .expense d t p s =>
      match recordExpense st d t p s with
      | .ok (st', _) => st'
      | .error _ => st
  | .settlement f t a =>
      match recordSettlement st f t a with
      | .ok (st', _) => st'
      | .error _ => st
  | .reversal tx =>
      match reverseTransaction st tx with
      | .ok (st', _) => st'
      | .error _ => st

/-- Run a sequence of ledger operations from an initial store. -/
def runOps (init : Ledger) (ops : List LedgerOp) : Ledger := ops.foldl applyOp init

/-! ## BalanceCalculator (spec section 4.2) -/

/-- Modelled from the spec: the derived pairwise balance (section 3):
sum of entries where a is debtor and b creditor minus the sum of entries
where b is debtor and a creditor; backend ledger.py is missing from src/. -/
def balance (entries : List LedgerEntry) (a b : Nat) : Int :=
  ((entries.filter (fun e => e.debtor = a ∧ e.creditor = b)).map LedgerEntry.amount).sum
  - ((entries.filter (fun e => e.debtor = b ∧ e.creditor = a)).map LedgerEntry.amount).sum

/-- Modelled from the spec: the per-user net position, total owed to them minus
total they owe (sections 3 and 4.3); backend ledger.py is missing from
src/. -/
def netOfUser (entries : List LedgerEntry) (u : Nat) : Int :=
  (entries.map (fun e =>
    (if e.creditor = u then e.amount else 0) - (if e.debtor = u then e.amount else 0))).sum

/-! ## ReconciliationEngine (spec section 4.3)

Modelled from the spec: backend reconciliation.py is missing from src/.
Net positions are a list of (user id, signed position) pairs; the greedy
extremal-pairing loop repeatedly matches the largest creditor with the
largest debtor (ties on equal magnitude broken toward the lower user id),
transfers the smaller magnitude, and drops zeroed positions. -/

/-- One proposed transfer (from, to, amount) of a reconciliation plan. -/
structure Transfer where
  fromId : Nat
  toId : Nat
  amount : Int
deriving DecidableEq

/-- Modelled from the spec: the creditor selection order of step 2a of
section 4.3: a beats b when a has the strictly larger position, or equal
positions and the lower user id; backend reconciliation.py is missing from
src/. -/
def betterCreditor (a b : Nat × Int) : Prop :=
  b.2 < a.2 ∨ (a.2 = b.2 ∧ a.1 < b.1)

instance : DecidableRel betterCreditor := fun a b => by
  unfold betterCreditor; infer_instance

/-- Modelled from the spec: the debtor selection order of step 2a of
section 4.3: a beats b when a has the strictly more negative position, or
equal positions and the lower user id; backend reconciliation.py is missing
from src/. -/
def betterDebtor (a b : Nat × Int) : Prop :=
  a.2 < b.2 ∨ (a.2 = b.2 ∧ a.1 < b.1)

instance : DecidableRel betterDebtor := fun a b => by
  unfold betterDebtor; infer_instance

/-- Select the best element of a list under a strict preference relation. -/
def pickBest (better : Nat × Int → Nat × Int → Prop) [DecidableRel better] :
    List (Nat × Int) → Option (Nat × Int)
  | [] => none
  | x :: xs =>
      match pickBest better xs with
      | none => some x
      | some y => if better x y then some x else some y

/-- The biggest net creditor of a position list (step 2a of section 4.3). -/
def pickCreditor (s : List (Nat × Int)) : Option (Nat × Int) :=
  pickBest betterCreditor (s.filter (fun p => 0 < p.2))

/-- The biggest net debtor of a position list (step 2a of section 4.3). -/
def pickDebtor (s : List (Nat × Int)) : Option (Nat × Int) :=
  pickBest betterDebtor (s.filter (fun p => p.2 < 0))

/-- Apply one transfer to a position list (step 2d of section 4.3): the
receiving creditor is owed the amount less, the paying debtor owes it
less. -/
def applyTransferPos (s : List (Nat × Int)) (t : Transfer) : List (Nat × Int) :=
  s.map (fun p =>
    if p.1 = t.toId then (p.1, p.2 - t.amount)
    else if p.1 = t.fromId then (p.1, p.2 + t.amount) else p)

/-- Modelled from the spec: the greedy extremal-pairing loop of section 4.3,
with explicit fuel standing for the termination bound of the loop; when no
creditor/debtor pair is left the plan so far is complete; backend
reconciliation.py is missing from src/. -/
def settleGo (fuel : Nat) (s : List (Nat × Int)) : Option (List Transfer) :=
  match pickCreditor s, pickDebtor s with
  | some c, some d =>
      match fuel with
      | 0 => none
      | fuel' + 1 =>
          let amt := min c.2 (-d.2)
          let t : Transfer := ⟨d.1, c.1, amt⟩
          let s' := (applyTransferPos s t).filter (fun p => p.2 ≠ 0)
          (settleGo fuel' s').map (fun rest => t :: rest)
  | _, _ => some []

/-- Modelled from the spec: the ReconciliationEngine entry point of
section 4.3: drop zero positions (step 1) and run the greedy loop, with the
number of non-zero positions as fuel; backend reconciliation.py is missing
from src/. -/
def reconcile (positions : List (Nat × Int)) : Option (List Transfer) :=
  let s := positions.filter (fun p => p.2 ≠ 0)
  settleGo s.length s

/-- The position of a user in a position list: the sum of the entries
carrying the user id (a singleton for duplicate-free lists, zero when the
user is absent). -/
def lookupPos (s : List (Nat × Int)) (u : Nat) : Int :=
  ((s.filter (fun p => p.1 = u)).map Prod.snd).sum

/-- Total signed position of a position list. -/
def posSum (s : List (Nat × Int)) : Int := (s.map Prod.snd).sum

/-- Net effect of executing every transfer of a plan on one user position:
each transfer raises the payer position and lowers the receiver position. -/
def planDelta (plan : List Transfer) (u : Nat) : Int :=
  (plan.map (fun t =>
    (if t.fromId = u then t.amount else 0) - (if t.toId = u then t.amount else 0))).sum

/-! ## Pairwise balance snapshots (for claim C2)

A balance snapshot as a list of debt edges (debtor, creditor, amount), the
net positions it induces, and the effect of executing a reconciliation plan
as settlements on the snapshot. -/

/-- One pairwise debt of a balance snapshot. -/
structure DebtEdge where
  debtor : Nat
  creditor : Nat
  amount : Int
deriving DecidableEq

/-- Net pairwise balance of a snapshot between two users. -/
def pairBalance (edges : List DebtEdge) (a b : Nat) : Int :=
  ((edges.filter (fun e => e.debtor = a ∧ e.creditor = b)).map DebtEdge.amount).sum
  - ((edges.filter (fun e => e.debtor = b ∧ e.creditor = a)).map DebtEdge.amount).sum

/-- Append a user id if it is not present yet. -/
def insertUser (us : List Nat) (u : Nat) : List Nat :=
  if u ∈ us then us else us ++ [u]

/-- The users touched by a snapshot, in first-appearance order. -/
def usersOf (edges : List DebtEdge) : List Nat :=
  edges.foldl (fun us e => insertUser (insertUser us e.debtor) e.creditor) []

/-- Net position of one user in a snapshot: total owed to the user minus
total the user owes. -/
def netPosOf (edges : List DebtEdge) (u : Nat) : Int :=
  ((edges.filter (fun e => e.creditor = u)).map DebtEdge.amount).sum
  - ((edges.filter (fun e => e.debtor = u)).map DebtEdge.amount).sum

/-- The per-user net position list of a snapshot. -/
def netPositionsOf (edges : List DebtEdge) : List (Nat × Int) :=
  (usersOf edges).map (fun u => (u, netPosOf edges u))

/-- Record the transfers of a plan as settlements on a snapshot: paying the
amount from the plan debtor to its creditor cancels that much of the
debtor debt, i.e. adds a compensating edge in the opposite direction. -/
def applyPlanAsSettlements (edges : List DebtEdge) (plan : List Transfer) :
    List DebtEdge :=
  edges ++ plan.map (fun t => ⟨t.toId, t.fromId, t.amount⟩)

/-! ## General list helpers -/

/-- Summing an indicator of one key over a duplicate-free key list that
contains it yields the indicated value. -/
theorem sum_ite_key {l : List Nat} {c : Nat} (a : Int)
    (hnd : l.Nodup) (hc : c ∈ l) :
    (l.map (fun x => if x = c then a else 0)).sum = a := by
  induction l with
  | nil => cases hc
  | cons x xs ih =>
      rcases List.mem_cons.mp hc with h | h
      · have hnot : x ∉ xs := (List.nodup_cons.mp hnd).1
        have hz : (xs.map (fun y => if y = c then a else 0)).sum = 0 := by
          apply List.sum_eq_zero
          intro v hv
          rcases List.mem_map.mp hv with ⟨y, hy, rfl⟩
          have hy' : y ≠ c := fun hyc => hnot ((hyc.trans h) ▸ hy)
          simp [hy']
        rw [List.map_cons, List.sum_cons, if_pos h.symm, hz, add_zero]
      · have hx : x ≠ c := by
          intro hxc
          exact (List.nodup_cons.mp hnd).1 (hxc ▸ h)
        simp [hx, ih (List.nodup_cons.mp hnd).2 h]

/-- Summing an indicator of a key absent from the key list yields zero. -/
theorem sum_ite_key_not_mem {l : List Nat} {c : Nat} (a : Int) (hc : c ∉ l) :
    (l.map (fun x => if x = c then a else 0)).sum = 0 := by
  apply List.sum_eq_zero
  intro v hv
  rcases List.mem_map.mp hv with ⟨y, hy, rfl⟩
  have : y ≠ c := fun h => hc (h ▸ hy)
  simp [this]

/-- Pointwise sums of integer-valued maps add. -/
theorem sum_map_add {α : Type} (l : List α) (f g : α → Int) :
    (l.map (fun x => f x + g x)).sum = (l.map f).sum + (l.map g).sum := by
  induction l with
  | nil => simp
  | cons a as ih => simp [ih]; ring

/-- Pointwise differences of integer-valued maps subtract. -/
theorem sum_map_sub {α : Type} (l : List α) (f g : α → Int) :
    (l.map (fun x => f x - g x)).sum = (l.map f).sum - (l.map g).sum := by
  induction l with
  | nil => simp
  | cons a as ih => simp [ih]; ring

/-- Double list sums commute. -/
theorem sum_sum_comm {α β : Type} (l : List α) (m : List β) (f : α → β → Int) :
    (l.map (fun a => (m.map (f a)).sum)).sum
      = (m.map (fun b => (l.map (fun a => f a b)).sum)).sum := by
  induction l with
  | nil => simp
  | cons a as ih =>
      simp only [List.map_cons, List.sum_cons, ih, ← sum_map_add]

/-! ## Claim theorems: external interface representation (C1) -/

/-- C1: the claim that every amount crossing the external interface is
serialized as a decimal string or an integer count of minor units is false:
the boundary declarations type every amount as the TypeScript number type,
an IEEE-754 binary double (counterexample: BalanceResponse.net_balance). -/
theorem boundary_amounts_not_all_decimal :
    ¬ (∀ f ∈ boundaryAmountFields,
        f.2 = AmountRepr.decimalString ∨ f.2 = AmountRepr.intMinorUnits) := by
  intro h
  have := h ("BalanceResponse.net_balance", AmountRepr.float64) (by decide)
  simp at this

/-- C1 (amended): every amount-typed field crossing the external interface
is declared with the TypeScript number type, an IEEE-754 binary
floating-point representation. -/
theorem boundary_amounts_all_float64 :
    ∀ f ∈ boundaryAmountFields, f.2 = AmountRepr.float64 := by
  decide

/-- Witness for the amended C1 theorem at a concrete field. -/
theorem boundary_amounts_all_float64_witness :
    ("Expense.amount", AmountRepr.float64) ∈ boundaryAmountFields ∧
      ("Expense.amount", AmountRepr.float64).2 = AmountRepr.float64 :=
  ⟨by decide, boundary_amounts_all_float64 ("Expense.amount", AmountRepr.float64) (by decide)⟩

/-! ## Claim theorems: split sums (C6) -/

/-- C6: recordExpense succeeds exactly when the split amounts sum to the
total; on a mismatch it fails with InvalidSplit and (as an applied command)
writes nothing; and every expense of mockExpenses has splits summing to its
amount. -/
theorem expense_split_sum_exact (st : Ledger) (d : String) (total : Int)
    (payer : Nat) (splits : List (Nat × Int))
    (hmismatch : (splits.map Prod.snd).sum ≠ total) :
    recordExpense st d total payer splits = .error .InvalidSplit
    ∧ applyOp st (.expense d total payer splits) = st
    ∧ (∀ e ∈ mockExpenses, sumSplits e = e.amount) := by
  refine ⟨?_, ?_, by decide⟩
  · simp [recordExpense, hmismatch]
  · simp [applyOp, recordExpense, hmismatch]

/-- Witness for the C6 theorem at a concrete ill-formed expense command. -/
theorem expense_split_sum_exact_witness :
    ((([(2, 300), (3, 300)] : List (Nat × Int)).map Prod.snd).sum ≠ (900 : Int))
    ∧ recordExpense (emptyLedger [1, 2, 3]) "dinner" 900 1 [(2, 300), (3, 300)]
        = .error .InvalidSplit := by
  refine ⟨by decide, ?_⟩
  exact (expense_split_sum_exact (emptyLedger [1, 2, 3]) "dinner" 900 1
    [(2, 300), (3, 300)] (by decide)).1

/-! ## Claim theorems: read-path error handling (C7) -/

/-- C7: the claim that getBalance and getHistory surface an
ArithmeticInvariantViolation (or any failure) to the caller rather than
replacing it with a default result is false: a thrown fetch is caught and
getBalance hands the caller the zero default, indistinguishable from a
successfully fetched zero balance. -/
theorem read_path_error_not_surfaced :
    ¬ (∀ result : FetchResult BalanceResponse,
        isErrorOutcome result → getBalance result ≠ defaultBalanceResponse) := by
  intro h
  exact h (FetchResult.throws) trivial rfl

/-- C7 (amended): the read-path operations getBalance and getHistory never
propagate any failure: every error outcome is caught and replaced by the
default result (the zero balance summary, resp. the empty history), and only
a parsed OK body is returned as-is. -/
theorem read_path_errors_defaulted (rb : FetchResult BalanceResponse)
    (rh : FetchResult (List Nat))
    (hb : isErrorOutcome rb) (hh : isErrorOutcome rh) :
    getBalance rb = defaultBalanceResponse ∧ getHistory rh = [] := by
  constructor
  · cases rb with
    | throws => rfl
    | response ok json =>
        rcases hb with h | h
        · subst h; rfl
        · subst h; cases ok <;> rfl
  · cases rh with
    | throws => rfl
    | response ok json =>
        rcases hh with h | h
        · subst h; rfl
        · subst h; cases ok <;> rfl

/-- Witness for the amended C7 theorem at concrete error outcomes. -/
theorem read_path_errors_defaulted_witness :
    isErrorOutcome (FetchResult.throws (α := BalanceResponse))
    ∧ isErrorOutcome (FetchResult.response (α := List Nat) false none)
    ∧ getBalance FetchResult.throws = defaultBalanceResponse
    ∧ getHistory (FetchResult.response (α := List Nat) false none) = [] := by
  refine ⟨trivial, Or.inl rfl, ?_⟩
  exact read_path_errors_defaulted FetchResult.throws
    (FetchResult.response false none) trivial (Or.inl rfl)

/-! ## Claim theorems: chat fallback (C10) -/

/-- Field values of the fixed fallback chat response. -/
theorem fallback_fields :
    fallbackChatResponse.success = false
    ∧ fallbackChatResponse.response
        = "Sorry, I couldn\x27t process that. Please try again." := ⟨rfl, rfl⟩

/-- C10: for every message, sendMessage resolves rather than rejecting: on
every outcome in which the try block yields no parsed body (thrown fetch,
non-OK status, unparseable body) it returns the fixed fallback response,
whose success flag is false and whose text is the fixed apology. -/
theorem sendMessage_never_rejects (message : String)
    (result : FetchResult ChatResponse) (herr : isErrorOutcome result) :
    sendMessage message result = fallbackChatResponse
    ∧ (sendMessage message result).success = false
    ∧ (sendMessage message result).response
        = "Sorry, I couldn\x27t process that. Please try again." := by
  have h : sendMessage message result = fallbackChatResponse := by
    cases result with
    | throws => rfl
    | response ok json =>
        rcases herr with h | h
        · subst h; rfl
        · subst h; cases ok <;> rfl
  exact ⟨h, by rw [h]; exact fallback_fields.1, by rw [h]; exact fallback_fields.2⟩

/-- Witness for the C10 theorem at a thrown fetch. -/
theorem sendMessage_never_rejects_witness :
    isErrorOutcome (FetchResult.throws (α := ChatResponse))
    ∧ sendMessage "Split 1200 dinner with Amit and Sarah" FetchResult.throws
        = fallbackChatResponse :=
  ⟨trivial, (sendMessage_never_rejects "Split 1200 dinner with Amit and Sarah"
    FetchResult.throws trivial).1⟩

/-! ## Claim theorems: balance summary totals (C8) -/

/-- Sum of the negative amounts of a balance list is nonpositive. -/
theorem sum_neg_amounts_nonpos (bs : List Balance) :
    ((bs.filter (fun b => b.amount < 0)).map Balance.amount).sum ≤ 0 := by
  induction bs with
  | nil => simp
  | cons b rest ih =>
      simp only [List.filter_cons]
      by_cases h : b.amount < 0
      · rw [if_pos (by simpa using h)]
        simp only [List.map_cons, List.sum_cons]
        omega
      · rw [if_neg (by simpa using h)]
        exact ih

/-- The total of a balance list splits into its positive and negative
parts. -/
theorem netBalance_split (bs : List Balance) :
    netBalance bs
      = ((bs.filter (fun b => 0 < b.amount)).map Balance.amount).sum
        + ((bs.filter (fun b => b.amount < 0)).map Balance.amount).sum := by
  induction bs with
  | nil => simp [netBalance]
  | cons b rest ih =>
      simp only [netBalance, List.map_cons, List.sum_cons, List.filter_cons] at *
      rcases lt_trichotomy b.amount 0 with h | h | h
      · rw [if_neg (by simp; omega), if_pos (by simpa using h)]
        simp only [List.map_cons, List.sum_cons]
        omega
      · rw [if_neg (by simp; omega), if_neg (by simp; omega)]
        omega
      · rw [if_pos (by simpa using h), if_neg (by simp; omega)]
        simp only [List.map_cons, List.sum_cons]
        omega

/-- C8: over every balance list the net balance equals the total owed to the
user minus the total the user owes (positive-part sum minus the magnitude of
the negative-part sum), and concretely getNetBalance() equals
getTotalOwedToYou() minus getTotalYouOwe() over mockBalances. -/
theorem netBalance_eq_owed_minus_owes :
    (∀ bs : List Balance, netBalance bs = totalOwedToYou bs - totalYouOwe bs)
    ∧ getNetBalance = getTotalOwedToYou - getTotalYouOwe := by
  have hgen : ∀ bs : List Balance, netBalance bs = totalOwedToYou bs - totalYouOwe bs := by
    intro bs
    have habs := abs_of_nonpos (sum_neg_amounts_nonpos bs)
    rw [netBalance_split bs]
    unfold totalOwedToYou totalYouOwe
    omega
  exact ⟨hgen, hgen mockBalances⟩

/-! ## Claim theorems: ledger zero-sum invariants (C3) -/

/-- Pairwise balances are antisymmetric for every entry list. -/
theorem balance_antisymm (entries : List LedgerEntry) (a b : Nat) :
    balance entries a b = - balance entries b a := by
  unfold balance
  ring

/-- Over any duplicate-free user list covering all participants of an entry
list, the per-user net positions sum to zero. -/
theorem net_positions_sum_zero (entries : List LedgerEntry) (users : List Nat)
    (hnd : users.Nodup)
    (hcov : ∀ e ∈ entries, e.debtor ∈ users ∧ e.creditor ∈ users) :
    (users.map (netOfUser entries)).sum = 0 := by
  unfold netOfUser
  rw [sum_sum_comm users entries (fun u e =>
    (if e.creditor = u then e.amount else 0) - (if e.debtor = u then e.amount else 0))]
  apply List.sum_eq_zero
  intro v hv
  rcases List.mem_map.mp hv with ⟨e, he, rfl⟩
  rw [sum_map_sub]
  have hc : (users.map (fun u => if e.creditor = u then e.amount else 0)).sum = e.amount := by
    have := sum_ite_key (l := users) (c := e.creditor) e.amount hnd (hcov e he).2
    simpa [eq_comm] using this
  have hd : (users.map (fun u => if e.debtor = u then e.amount else 0)).sum = e.amount := by
    have := sum_ite_key (l := users) (c := e.debtor) e.amount hnd (hcov e he).1
    simpa [eq_comm] using this
  rw [hc, hd, sub_self]

/-- C3: after every sequence of ledger operations run from an empty store,
the pairwise balances are antisymmetric, and over any duplicate-free user
list covering the participants of the resulting entries the per-user net
positions (total owed to each user minus total each user owes) sum to
zero. -/
theorem ledger_invariants_hold (users : List Nat) (ops : List LedgerOp)
    (hnd : users.Nodup)
    (hcov : ∀ e ∈ (runOps (emptyLedger users) ops).entries,
        e.debtor ∈ users ∧ e.creditor ∈ users) :
    (∀ a b, balance ((runOps (emptyLedger users) ops).entries) a b
        = - balance ((runOps (emptyLedger users) ops).entries) b a)
    ∧ (users.map (netOfUser ((runOps (emptyLedger users) ops).entries))).sum = 0 :=
  ⟨fun a b => balance_antisymm _ a b,
   net_positions_sum_zero _ users hnd hcov⟩

/-- Witness for the C3 theorem: an expense split three ways, a settlement
and a reversal over users 1, 2, 3. -/
theorem ledger_invariants_hold_witness :
    (([1, 2, 3] : List Nat).Nodup
      ∧ ∀ e ∈ (runOps (emptyLedger [1, 2, 3])
          [LedgerOp.expense "dinner" 900 1 [(1, 300), (2, 300), (3, 300)],
           LedgerOp.settlement 2 1 300, LedgerOp.reversal 0]).entries,
          e.debtor ∈ ([1, 2, 3] : List Nat) ∧ e.creditor ∈ ([1, 2, 3] : List Nat))
    ∧ (([1, 2, 3] : List Nat).map (netOfUser ((runOps (emptyLedger [1, 2, 3])
          [LedgerOp.expense "dinner" 900 1 [(1, 300), (2, 300), (3, 300)],
           LedgerOp.settlement 2 1 300, LedgerOp.reversal 0]).entries))).sum = 0 :=
  ⟨⟨by decide, by decide⟩,
   (ledger_invariants_hold [1, 2, 3]
      [LedgerOp.expense "dinner" 900 1 [(1, 300), (2, 300), (3, 300)],
       LedgerOp.settlement 2 1 300, LedgerOp.reversal 0]
      (by decide) (by decide)).2⟩

/-! ## Reconciliation: selection lemmas -/

/-- The selected element belongs to the list. -/
theorem pickBest_mem {better : Nat × Int → Nat × Int → Prop} [DecidableRel better] :
    ∀ {l : List (Nat × Int)} {x}, pickBest better l = some x → x ∈ l := by
  intro l
  induction l with
  | nil => intro x h; cases h
  | cons y ys ih =>
      intro x h
      rw [pickBest] at h
      split at h
      next =>
        cases h
        exact List.mem_cons_self _ _
      next z heq =>
        by_cases hb : better y z
        · rw [if_pos hb] at h
          cases h
          exact List.mem_cons_self _ _
        · rw [if_neg hb] at h
          cases h
          exact List.mem_cons_of_mem _ (ih heq)

/-- Selection returns none exactly on the empty list. -/
theorem pickBest_none {better : Nat × Int → Nat × Int → Prop} [DecidableRel better] :
    ∀ {l : List (Nat × Int)}, pickBest better l = none ↔ l = [] := by
  intro l
  cases l with
  | nil => simp [pickBest]
  | cons y ys =>
      rw [pickBest]
      constructor
      · intro h
        split at h
        · cases h
        · split at h <;> cases h
      · intro h; cases h

/-- Nothing in the list strictly beats the selected element, for an
asymmetric transitive preference. -/
theorem pickBest_best {better : Nat × Int → Nat × Int → Prop} [DecidableRel better]
    (hasym : ∀ a b, better a b → ¬ better b a)
    (htrans : ∀ a b c, better a b → better b c → better a c) :
    ∀ {l : List (Nat × Int)} {x}, pickBest better l = some x →
      ∀ y ∈ l, ¬ better y x := by
  intro l
  induction l with
  | nil => intro x h; cases h
  | cons y ys ih =>
      intro x h z hz
      rw [pickBest] at h
      split at h
      next heq =>
        cases h
        have h0 : ys = [] := pickBest_none.mp heq
        subst h0
        rcases List.mem_cons.mp hz with h | h
        · subst h; exact fun hb => hasym _ _ hb hb
        · cases h
      next w heq =>
        by_cases hb : better y w
        · rw [if_pos hb] at h
          cases h
          rcases List.mem_cons.mp hz with h | h
          · subst h; exact fun hb2 => hasym _ _ hb2 hb2
          · intro hzx
            exact ih heq z h (htrans _ _ _ hzx hb)
        · rw [if_neg hb] at h
          cases h
          rcases List.mem_cons.mp hz with h | h
          · subst h; exact hb
          · exact ih heq z h

/-- A connected strict preference has a unique unbeaten member. -/
theorem pickBest_unique {better : Nat × Int → Nat × Int → Prop}
    (hconn : ∀ a b : Nat × Int, a ≠ b → better a b ∨ better b a)
    {l : List (Nat × Int)} {x y : Nat × Int} (hx : x ∈ l) (hy : y ∈ l)
    (hnx : ∀ z ∈ l, ¬ better z x) (hny : ∀ z ∈ l, ¬ better z y) : x = y := by
  by_contra hne
  rcases hconn x y hne with h | h
  · exact hny x hx h
  · exact hnx y hy h

/-- Selection only depends on the multiset of candidates. -/
theorem pickBest_perm {better : Nat × Int → Nat × Int → Prop} [DecidableRel better]
    (hasym : ∀ a b, better a b → ¬ better b a)
    (htrans : ∀ a b c, better a b → better b c → better a c)
    (hconn : ∀ a b : Nat × Int, a ≠ b → better a b ∨ better b a)
    {l l' : List (Nat × Int)} (hp : l.Perm l') :
    pickBest better l = pickBest better l' := by
  cases hl : pickBest better l with
  | none =>
      have h0 : l = [] := pickBest_none.mp hl
      subst h0
      have : l' = [] := hp.symm.eq_nil
      subst this
      exact hl.symm
  | some x =>
      cases hl' : pickBest better l' with
      | none =>
          have h0 : l' = [] := pickBest_none.mp hl'
          subst h0
          have : l = [] := hp.eq_nil
          subst this
          cases hl
      | some y =>
          have hxm : x ∈ l' := hp.subset (pickBest_mem hl)
          have hym : y ∈ l' := pickBest_mem hl'
          have hnx : ∀ z ∈ l', ¬ better z x := fun z hz =>
            pickBest_best hasym htrans hl z (hp.symm.subset hz)
          have hny : ∀ z ∈ l', ¬ better z y := pickBest_best hasym htrans hl'
          exact congrArg some (pickBest_unique hconn hxm hym hnx hny)

/-- The creditor preference is asymmetric. -/
theorem betterCreditor_asymm (a b : Nat × Int) :
    betterCreditor a b → ¬ betterCreditor b a := by
  unfold betterCreditor
  omega

/-- The creditor preference is transitive. -/
theorem betterCreditor_trans (a b c : Nat × Int) :
    betterCreditor a b → betterCreditor b c → betterCreditor a c := by
  unfold betterCreditor
  omega

/-- The creditor preference relates any two distinct candidates. -/
theorem betterCreditor_conn (a b : Nat × Int) (hne : a ≠ b) :
    betterCreditor a b ∨ betterCreditor b a := by
  unfold betterCreditor
  by_cases h2 : a.2 = b.2
  · by_cases h1 : a.1 = b.1
    · exact absurd (Prod.ext h1 h2) hne
    · omega
  · omega

/-- The debtor preference is asymmetric. -/
theorem betterDebtor_asymm (a b : Nat × Int) :
    betterDebtor a b → ¬ betterDebtor b a := by
  unfold betterDebtor
  omega

/-- The debtor preference is transitive. -/
theorem betterDebtor_trans (a b c : Nat × Int) :
    betterDebtor a b → betterDebtor b c → betterDebtor a c := by
  unfold betterDebtor
  omega

/-- The debtor preference relates any two distinct candidates. -/
theorem betterDebtor_conn (a b : Nat × Int) (hne : a ≠ b) :
    betterDebtor a b ∨ betterDebtor b a := by
  unfold betterDebtor
  by_cases h2 : a.2 = b.2
  · by_cases h1 : a.1 = b.1
    · exact absurd (Prod.ext h1 h2) hne
    · omega
  · omega

/-- A selected creditor is a positive-position member of the input. -/
theorem pickCreditor_mem {s : List (Nat × Int)} {c : Nat × Int}
    (h : pickCreditor s = some c) : c ∈ s ∧ 0 < c.2 := by
  have hm := pickBest_mem h
  have hmf := List.mem_filter.mp hm
  exact ⟨hmf.1, by simpa using hmf.2⟩

/-- A selected debtor is a negative-position member of the input. -/
theorem pickDebtor_mem {s : List (Nat × Int)} {d : Nat × Int}
    (h : pickDebtor s = some d) : d ∈ s ∧ d.2 < 0 := by
  have hm := pickBest_mem h
  have hmf := List.mem_filter.mp hm
  exact ⟨hmf.1, by simpa using hmf.2⟩

/-- No creditor means no positive position. -/
theorem pickCreditor_none {s : List (Nat × Int)}
    (h : pickCreditor s = none) : ∀ p ∈ s, ¬ 0 < p.2 := by
  intro p hp hpos
  have hnil : s.filter (fun p => 0 < p.2) = [] := pickBest_none.mp h
  have : p ∈ s.filter (fun p => 0 < p.2) :=
    List.mem_filter.mpr ⟨hp, by simpa using hpos⟩
  rw [hnil] at this
  cases this

/-- No debtor means no negative position. -/
theorem pickDebtor_none {s : List (Nat × Int)}
    (h : pickDebtor s = none) : ∀ p ∈ s, ¬ p.2 < 0 := by
  intro p hp hneg
  have hnil : s.filter (fun p => p.2 < 0) = [] := pickBest_none.mp h
  have : p ∈ s.filter (fun p => p.2 < 0) :=
    List.mem_filter.mpr ⟨hp, by simpa using hneg⟩
  rw [hnil] at this
  cases this

/-! ## Reconciliation: effect of one transfer on the position list -/

/-- Signed change a transfer makes to the position keyed by a user id. -/
def tDelta (t : Transfer) (x : Nat) : Int :=
  if x = t.toId then -t.amount else if x = t.fromId then t.amount else 0

/-- Applying a transfer shifts each position by the keyed delta. -/
theorem applyTransferPos_eq_map (s : List (Nat × Int)) (t : Transfer) :
    applyTransferPos s t = s.map (fun p => (p.1, p.2 + tDelta t p.1)) := by
  unfold applyTransferPos tDelta
  apply List.map_congr_left
  intro p _
  by_cases h1 : p.1 = t.toId
  · simp only [if_pos h1]
    exact Prod.ext rfl (by ring)
  · simp only [if_neg h1]
    by_cases h2 : p.1 = t.fromId
    · simp only [if_pos h2]
    · simp only [if_neg h2, add_zero]

/-- Applying a transfer keeps the key sequence. -/
theorem applyTransferPos_keys (s : List (Nat × Int)) (t : Transfer) :
    (applyTransferPos s t).map Prod.fst = s.map Prod.fst := by
  rw [applyTransferPos_eq_map, List.map_map]
  rfl

/-- Applying a transfer keeps the length. -/
theorem applyTransferPos_length (s : List (Nat × Int)) (t : Transfer) :
    (applyTransferPos s t).length = s.length := by
  rw [applyTransferPos_eq_map, List.length_map]

/-- Dropping zero positions does not change the total. -/
theorem posSum_filter_nonzero (s : List (Nat × Int)) :
    posSum (s.filter (fun p => p.2 ≠ 0)) = posSum s := by
  induction s with
  | nil => rfl
  | cons p ps ih =>
      simp only [posSum, List.filter_cons] at *
      by_cases h : p.2 = 0
      · rw [if_neg (by simpa using h)]
        rw [List.map_cons, List.sum_cons, h, zero_add]
        exact ih
      · rw [if_pos (by simpa using h)]
        simp only [List.map_cons, List.sum_cons]
        omega

/-- Dropping zero positions does not change any looked-up user position. -/
theorem lookupPos_filter_nonzero (s : List (Nat × Int)) (u : Nat) :
    lookupPos (s.filter (fun p => p.2 ≠ 0)) u = lookupPos s u := by
  induction s with
  | nil => rfl
  | cons p ps ih =>
      simp only [lookupPos, List.filter_cons] at *
      by_cases hz : p.2 = 0
      · rw [if_neg (by simpa using hz)]
        by_cases hk : p.1 = u
        · rw [if_pos (by simpa using hk), List.map_cons, List.sum_cons, hz, zero_add]
          exact ih
        · rw [if_neg (by simpa using hk)]
          exact ih
      · rw [if_pos (by simpa using hz), List.filter_cons]
        by_cases hk : p.1 = u
        · rw [if_pos (by simpa using hk), if_pos (by simpa using hk)]
          simp only [List.map_cons, List.sum_cons]
          omega
        · rw [if_neg (by simpa using hk), if_neg (by simpa using hk)]
          exact ih

/-- Shifting positions by a keyed function moves one looked-up user
position by that function, over duplicate-free keys. -/
theorem lookupPos_map_shift (s : List (Nat × Int)) (g : Nat → Int) (u : Nat)
    (hnd : (s.map Prod.fst).Nodup) :
    lookupPos (s.map (fun p => (p.1, p.2 + g p.1))) u
      = lookupPos s u + (if u ∈ s.map Prod.fst then g u else 0) := by
  induction s with
  | nil => simp [lookupPos]
  | cons p ps ih =>
      have hnd' : (ps.map Prod.fst).Nodup := (List.nodup_cons.mp hnd).2
      have hpnot : p.1 ∉ ps.map Prod.fst := (List.nodup_cons.mp hnd).1
      simp only [List.map_cons, lookupPos, List.filter_cons] at *
      by_cases hk : p.1 = u
      · rw [if_pos (by simpa using hk), if_pos (by simpa using hk)]
        have hmem : u ∈ p.1 :: ps.map Prod.fst := by
          rw [hk]; exact List.mem_cons_self _ _
        rw [if_pos hmem]
        have hnot : u ∉ ps.map Prod.fst := hk ▸ hpnot
        rw [if_neg hnot] at ih
        simp only [List.map_cons, List.sum_cons]
        have := ih hnd'
        rw [hk]
        omega
      · rw [if_neg (by simpa using hk), if_neg (by simpa using hk)]
        have hmm : (u ∈ p.1 :: ps.map Prod.fst) ↔ (u ∈ ps.map Prod.fst) := by
          constructor
          · intro h
            rcases List.mem_cons.mp h with h | h
            · exact absurd h.symm hk
            · exact h
          · exact fun h => List.mem_cons_of_mem _ h
        by_cases hmem : u ∈ ps.map Prod.fst
        · rw [if_pos (hmm.mpr hmem)]
          rw [if_pos hmem] at ih
          exact ih hnd'
        · rw [if_neg (fun h => hmem (hmm.mp h))]
          rw [if_neg hmem] at ih
          exact ih hnd'

/-- The keyed delta of a transfer with distinct endpoints splits into two
indicators. -/
theorem tDelta_split (t : Transfer) (hne : t.toId ≠ t.fromId) (x : Nat) :
    tDelta t x = (if x = t.toId then -t.amount else 0)
      + (if x = t.fromId then t.amount else 0) := by
  unfold tDelta
  by_cases h1 : x = t.toId
  · have h2 : ¬ x = t.fromId := fun h => hne (h1 ▸ h)
    rw [if_pos h1, if_pos h1, if_neg h2, add_zero]
  · rw [if_neg h1, if_neg h1, zero_add]

/-- A transfer between two distinct present users keeps the total position
sum, over duplicate-free keys. -/
theorem posSum_applyTransfer (s : List (Nat × Int)) (t : Transfer)
    (hnd : (s.map Prod.fst).Nodup)
    (hto : t.toId ∈ s.map Prod.fst) (hfrom : t.fromId ∈ s.map Prod.fst)
    (hne : t.toId ≠ t.fromId) :
    posSum (applyTransferPos s t) = posSum s := by
  rw [applyTransferPos_eq_map]
  unfold posSum
  rw [List.map_map]
  have hfun : (Prod.snd ∘ fun p : Nat × Int => (p.1, p.2 + tDelta t p.1))
      = fun p : Nat × Int => p.2 + tDelta t p.1 := rfl
  rw [hfun, sum_map_add s Prod.snd (fun p => tDelta t p.1)]
  have hkey : (s.map (fun p => tDelta t p.1)) = (s.map Prod.fst).map (tDelta t) := by
    rw [List.map_map]; rfl
  rw [hkey]
  have hsplit : ((s.map Prod.fst).map (tDelta t)).sum
      = ((s.map Prod.fst).map (fun x => if x = t.toId then -t.amount else 0)).sum
        + ((s.map Prod.fst).map (fun x => if x = t.fromId then t.amount else 0)).sum := by
    rw [← sum_map_add]
    apply congrArg
    apply List.map_congr_left
    intro x _
    exact tDelta_split t hne x
  rw [hsplit, sum_ite_key (-t.amount) hnd hto, sum_ite_key t.amount hnd hfrom]
  ring

/-! ## Reconciliation: termination and transfer bound -/

/-- Two distinct members force length at least two. -/
theorem two_le_length_of_mem {l : List (Nat × Int)} {a b : Nat × Int}
    (ha : a ∈ l) (hb : b ∈ l) (hne : a ≠ b) : 2 ≤ l.length := by
  cases l with
  | nil => cases ha
  | cons x xs =>
      cases xs with
      | nil =>
          rcases List.mem_singleton.mp ha with rfl
          rcases List.mem_singleton.mp hb with rfl
          exact absurd rfl hne
      | cons y ys => simp only [List.length_cons]; omega

/-- One greedy step strictly shrinks the live position list: the transferred
minimum zeroes the creditor or the debtor, and zeroed positions are
dropped. -/
theorem step_length_lt (s : List (Nat × Int)) {c d : Nat × Int}
    (hnd : (s.map Prod.fst).Nodup)
    (hc : pickCreditor s = some c) (hd : pickDebtor s = some d) :
    ((applyTransferPos s ⟨d.1, c.1, min c.2 (-d.2)⟩).filter
        (fun p => p.2 ≠ 0)).length < s.length := by
  rcases pickCreditor_mem hc with ⟨hcm, hcpos⟩
  rcases pickDebtor_mem hd with ⟨hdm, hdneg⟩
  have hne : c ≠ d := fun h => by rw [h] at hcpos; omega
  have hkeys : c.1 ≠ d.1 := fun h =>
    hne (List.inj_on_of_nodup_map hnd hcm hdm h)
  set t : Transfer := ⟨d.1, c.1, min c.2 (-d.2)⟩ with ht
  have hlen : (applyTransferPos s t).length = s.length := applyTransferPos_length s t
  have hle : ((applyTransferPos s t).filter (fun p => p.2 ≠ 0)).length
      ≤ (applyTransferPos s t).length := List.length_filter_le _ _
  rcases Nat.lt_or_ge ((applyTransferPos s t).filter (fun p => p.2 ≠ 0)).length
      (applyTransferPos s t).length with h | h
  · omega
  · exfalso
    have heq : ((applyTransferPos s t).filter (fun p => p.2 ≠ 0)).length
        = (applyTransferPos s t).length := by omega
    have hall := List.filter_length_eq_length.mp heq
    by_cases hmin : c.2 ≤ -d.2
    · have hamt : min c.2 (-d.2) = c.2 := min_eq_left hmin
      have hmem : (c.1, (0 : Int)) ∈ applyTransferPos s t := by
        rw [applyTransferPos_eq_map]
        have : (c.1, (0 : Int)) = (c.1, c.2 + tDelta t c.1) := by
          unfold tDelta
          rw [if_pos rfl]
          exact Prod.ext rfl (by rw [ht]; simp [hamt])
        rw [this]
        exact List.mem_map_of_mem _ hcm
      have := hall _ hmem
      simp at this
    · have hamt : min c.2 (-d.2) = -d.2 := min_eq_right (by omega)
      have hmem : (d.1, (0 : Int)) ∈ applyTransferPos s t := by
        rw [applyTransferPos_eq_map]
        have : (d.1, (0 : Int)) = (d.1, d.2 + tDelta t d.1) := by
          unfold tDelta
          rw [if_neg (by rw [ht]; exact fun h => hkeys h.symm), if_pos rfl]
          exact Prod.ext rfl (by rw [ht]; simp [hamt])
        rw [this]
        exact List.mem_map_of_mem _ hdm
      have := hall _ hmem
      simp at this

/-- The greedy loop keeps the key sequence duplicate-free. -/
theorem step_keys_nodup (s : List (Nat × Int)) (t : Transfer)
    (hnd : (s.map Prod.fst).Nodup) :
    (((applyTransferPos s t).filter (fun p => p.2 ≠ 0)).map Prod.fst).Nodup := by
  apply List.Nodup.sublist (List.Sublist.map _ (List.filter_sublist _))
  rw [applyTransferPos_keys]
  exact hnd

/-- The greedy loop returns the empty plan when no creditor is left. -/
theorem settleGo_none_left (fuel : Nat) (s : List (Nat × Int))
    (h : pickCreditor s = none) : settleGo fuel s = some [] := by
  rw [settleGo, h]

/-- The greedy loop returns the empty plan when no debtor is left. -/
theorem settleGo_none_right (fuel : Nat) (s : List (Nat × Int))
    (h : pickDebtor s = none) : settleGo fuel s = some [] := by
  cases hc : pickCreditor s with
  | none => rw [settleGo, hc]
  | some c => rw [settleGo, hc, h]

/-- With a live pair and no fuel the loop signals exhaustion. -/
theorem settleGo_zero_step (s : List (Nat × Int)) (c d : Nat × Int)
    (hc : pickCreditor s = some c) (hd : pickDebtor s = some d) :
    settleGo 0 s = none := by
  rw [settleGo, hc, hd]

/-- One unfolding of the greedy loop on a live creditor/debtor pair. -/
theorem settleGo_succ_step (fuel : Nat) (s : List (Nat × Int)) (c d : Nat × Int)
    (hc : pickCreditor s = some c) (hd : pickDebtor s = some d) :
    settleGo (fuel + 1) s
      = (settleGo fuel ((applyTransferPos s ⟨d.1, c.1, min c.2 (-d.2)⟩).filter
          (fun p => p.2 ≠ 0))).map
          (fun rest => (⟨d.1, c.1, min c.2 (-d.2)⟩ : Transfer) :: rest) := by
  rw [settleGo, hc, hd]

/-- More fuel cannot change a successful greedy run. -/
theorem settleGo_mono : ∀ (f g : Nat) (s : List (Nat × Int)) (plan : List Transfer),
    f ≤ g → settleGo f s = some plan → settleGo g s = some plan := by
  intro f
  induction f with
  | zero =>
      intro g s plan _ h
      cases hc : pickCreditor s with
      | none =>
          rw [settleGo_none_left _ _ hc] at h ⊢
          exact h
      | some c =>
          cases hd : pickDebtor s with
          | none =>
              rw [settleGo_none_right _ _ hd] at h ⊢
              exact h
          | some d =>
              rw [settleGo_zero_step s c d hc hd] at h
              cases h
  | succ f ih =>
      intro g s plan hle h
      cases hc : pickCreditor s with
      | none =>
          rw [settleGo_none_left _ _ hc] at h ⊢
          exact h
      | some c =>
          cases hd : pickDebtor s with
          | none =>
              rw [settleGo_none_right _ _ hd] at h ⊢
              exact h
          | some d =>
              rcases Nat.exists_eq_add_of_le hle with ⟨k, hk⟩
              have hg : g = (f + k) + 1 := by omega
              subst hg
              rw [settleGo_succ_step f s c d hc hd] at h
              rw [settleGo_succ_step (f + k) s c d hc hd]
              cases hs' : settleGo f ((applyTransferPos s ⟨d.1, c.1, min c.2 (-d.2)⟩).filter
                  (fun p => p.2 ≠ 0)) with
              | none => rw [hs'] at h; cases h
              | some rest =>
                  rw [hs'] at h
                  rw [ih (f + k) _ rest (by omega) hs']
                  exact h

/-- The greedy loop always finishes within fuel equal to the number of live
positions and emits at most one transfer fewer than that number: every step
zeroes at least one participant. -/
theorem settleGo_complete (n : Nat) : ∀ (s : List (Nat × Int)),
    s.length ≤ n → (s.map Prod.fst).Nodup →
    ∃ plan, settleGo s.length s = some plan ∧ plan.length ≤ s.length - 1 := by
  induction n with
  | zero =>
      intro s hlen _
      have h0 : s = [] := List.length_eq_zero.mp (Nat.le_zero.mp hlen)
      subst h0
      exact ⟨[], settleGo_none_left 0 [] (by rfl), by simp⟩
  | succ n ih =>
      intro s hlen hnd
      cases hc : pickCreditor s with
      | none => exact ⟨[], settleGo_none_left _ _ hc, by simp⟩
      | some c =>
          cases hd : pickDebtor s with
          | none => exact ⟨[], settleGo_none_right _ _ hd, by simp⟩
          | some d =>
              rcases pickCreditor_mem hc with ⟨hcm, hcpos⟩
              rcases pickDebtor_mem hd with ⟨hdm, hdneg⟩
              have hne : c ≠ d := fun h => by rw [h] at hcpos; omega
              have h2 : 2 ≤ s.length := two_le_length_of_mem hcm hdm hne
              set s' := (applyTransferPos s ⟨d.1, c.1, min c.2 (-d.2)⟩).filter
                  (fun p => p.2 ≠ 0) with hsdef
              have hlt : s'.length < s.length := step_length_lt s hnd hc hd
              have hnd' : (s'.map Prod.fst).Nodup := step_keys_nodup s _ hnd
              obtain ⟨plan', hp', hb'⟩ := ih s' (by omega) hnd'
              have hmono : settleGo (s.length - 1) s' = some plan' :=
                settleGo_mono s'.length (s.length - 1) s' plan' (by omega) hp'
              refine ⟨(⟨d.1, c.1, min c.2 (-d.2)⟩ : Transfer) :: plan', ?_, ?_⟩
              · have hsucc : s.length = (s.length - 1) + 1 := by omega
                rw [hsucc, settleGo_succ_step (s.length - 1) s c d hc hd, ← hsdef, hmono]
                rfl
              · simp only [List.length_cons]
                omega

/-- C4: for duplicate-free user ids, reconciliation terminates on every
input position list and the emitted plan holds at most N minus 1 transfers,
N being the number of users with a non-zero position. -/
theorem reconcile_terminates_bounded (positions : List (Nat × Int))
    (hnd : (positions.map Prod.fst).Nodup) :
    ∃ plan, reconcile positions = some plan
      ∧ plan.length ≤ (positions.filter (fun p => p.2 ≠ 0)).length - 1 := by
  have hnd' : (((positions.filter (fun p => p.2 ≠ 0)).map Prod.fst)).Nodup :=
    List.Nodup.sublist (List.Sublist.map _ (List.filter_sublist _)) hnd
  obtain ⟨plan, h1, h2⟩ :=
    settleGo_complete (positions.filter (fun p => p.2 ≠ 0)).length
      (positions.filter (fun p => p.2 ≠ 0)) le_rfl hnd'
  exact ⟨plan, h1, h2⟩

/-- Witness for the C4 theorem at a concrete three-user snapshot. -/
theorem reconcile_terminates_bounded_witness :
    (([(1, -300), (2, 0), (3, 300)] : List (Nat × Int)).map Prod.fst).Nodup
    ∧ ∃ plan, reconcile [(1, -300), (2, 0), (3, 300)] = some plan
        ∧ plan.length
            ≤ (([(1, -300), (2, 0), (3, 300)] : List (Nat × Int)).filter
                (fun p => p.2 ≠ 0)).length - 1 :=
  ⟨by decide, reconcile_terminates_bounded [(1, -300), (2, 0), (3, 300)] (by decide)⟩

/-! ## Reconciliation: the plan zeroes every net position (C2) -/

/-- A list of strictly negative positions with zero total is empty. -/
theorem all_neg_zero_sum_nil (s : List (Nat × Int))
    (hneg : ∀ p ∈ s, p.2 < 0) (hsum : posSum s = 0) : s = [] := by
  cases s with
  | nil => rfl
  | cons p ps =>
      exfalso
      have hle : ∀ l : List (Nat × Int), (∀ q ∈ l, q.2 < 0) → posSum l ≤ 0 := by
        intro l
        induction l with
        | nil => intro _; simp [posSum]
        | cons q qs ih =>
            intro h
            have h1 := h q (List.mem_cons_self _ _)
            have h2 := ih (fun r hr => h r (List.mem_cons_of_mem _ hr))
            simp only [posSum, List.map_cons, List.sum_cons] at *
            omega
      have h1 := hneg p (List.mem_cons_self _ _)
      have h2 := hle ps (fun r hr => hneg r (List.mem_cons_of_mem _ hr))
      simp only [posSum, List.map_cons, List.sum_cons] at hsum h2
      omega

/-- A list of strictly positive positions with zero total is empty. -/
theorem all_pos_zero_sum_nil (s : List (Nat × Int))
    (hpos : ∀ p ∈ s, 0 < p.2) (hsum : posSum s = 0) : s = [] := by
  cases s with
  | nil => rfl
  | cons p ps =>
      exfalso
      have hle : ∀ l : List (Nat × Int), (∀ q ∈ l, 0 < q.2) → 0 ≤ posSum l := by
        intro l
        induction l with
        | nil => intro _; simp [posSum]
        | cons q qs ih =>
            intro h
            have h1 := h q (List.mem_cons_self _ _)
            have h2 := ih (fun r hr => h r (List.mem_cons_of_mem _ hr))
            simp only [posSum, List.map_cons, List.sum_cons] at *
            omega
      have h1 := hpos p (List.mem_cons_self _ _)
      have h2 := hle ps (fun r hr => hpos r (List.mem_cons_of_mem _ hr))
      simp only [posSum, List.map_cons, List.sum_cons] at hsum h2
      omega

/-- On a duplicate-free zero-sum live position list, a successful greedy run
leaves every user position plus the net effect of the plan at zero. -/
theorem settleGo_zeroes : ∀ (fuel : Nat) (s : List (Nat × Int)) (plan : List Transfer),
    settleGo fuel s = some plan → (∀ p ∈ s, p.2 ≠ 0) → (s.map Prod.fst).Nodup →
    posSum s = 0 → ∀ u, lookupPos s u + planDelta plan u = 0 := by
  intro fuel
  induction fuel with
  | zero =>
      intro s plan h hz hnd hsum u
      cases hc : pickCreditor s with
      | none =>
          have hneg : ∀ p ∈ s, p.2 < 0 := by
            intro p hp
            have h1 := pickCreditor_none hc p hp
            have h2 := hz p hp
            omega
          have h0 : s = [] := all_neg_zero_sum_nil s hneg hsum
          subst h0
          rw [settleGo_none_left 0 [] hc] at h
          cases h
          simp [lookupPos, planDelta]
      | some c =>
          cases hd : pickDebtor s with
          | none =>
              have hpos : ∀ p ∈ s, 0 < p.2 := by
                intro p hp
                have h1 := pickDebtor_none hd p hp
                have h2 := hz p hp
                omega
              have h0 : s = [] := all_pos_zero_sum_nil s hpos hsum
              subst h0
              rw [settleGo_none_right 0 [] hd] at h
              cases h
              simp [lookupPos, planDelta]
          | some d =>
              rw [settleGo_zero_step s c d hc hd] at h
              cases h
  | succ fuel ih =>
      intro s plan h hz hnd hsum u
      cases hc : pickCreditor s with
      | none =>
          have hneg : ∀ p ∈ s, p.2 < 0 := by
            intro p hp
            have h1 := pickCreditor_none hc p hp
            have h2 := hz p hp
            omega
          have h0 : s = [] := all_neg_zero_sum_nil s hneg hsum
          subst h0
          rw [settleGo_none_left _ [] hc] at h
          cases h
          simp [lookupPos, planDelta]
      | some c =>
          cases hd : pickDebtor s with
          | none =>
              have hpos : ∀ p ∈ s, 0 < p.2 := by
                intro p hp
                have h1 := pickDebtor_none hd p hp
                have h2 := hz p hp
                omega
              have h0 : s = [] := all_pos_zero_sum_nil s hpos hsum
              subst h0
              rw [settleGo_none_right _ [] hd] at h
              cases h
              simp [lookupPos, planDelta]
          | some d =>
              rcases pickCreditor_mem hc with ⟨hcm, hcpos⟩
              rcases pickDebtor_mem hd with ⟨hdm, hdneg⟩
              have hne : c ≠ d := fun hcd => by rw [hcd] at hcpos; omega
              have hkeys : c.1 ≠ d.1 := fun hk =>
                hne (List.inj_on_of_nodup_map hnd hcm hdm hk)
              set t : Transfer := ⟨d.1, c.1, min c.2 (-d.2)⟩ with htdef
              rw [settleGo_succ_step fuel s c d hc hd, ← htdef] at h
              set s' := (applyTransferPos s t).filter (fun p => p.2 ≠ 0) with hsdef
              cases hrest : settleGo fuel s' with
              | none => rw [hrest] at h; cases h
              | some rest =>
                  rw [hrest] at h
                  have hplan : plan = t :: rest := by
                    cases h; rfl
                  subst hplan
                  have hcmem : t.toId ∈ s.map Prod.fst := by
                    rw [htdef]
                    exact List.mem_map_of_mem Prod.fst hcm
                  have hdmem : t.fromId ∈ s.map Prod.fst := by
                    rw [htdef]
                    exact List.mem_map_of_mem Prod.fst hdm
                  have htne : t.toId ≠ t.fromId := by
                    rw [htdef]
                    exact hkeys
                  have hz' : ∀ p ∈ s', p.2 ≠ 0 := by
                    intro p hp
                    have := (List.mem_filter.mp hp).2
                    simpa using this
                  have hnd' : (s'.map Prod.fst).Nodup := step_keys_nodup s t hnd
                  have hsum' : posSum s' = 0 := by
                    rw [hsdef, posSum_filter_nonzero,
                      posSum_applyTransfer s t hnd hcmem hdmem htne]
                    exact hsum
                  have hih := ih s' rest hrest hz' hnd' hsum' u
                  have hshift : lookupPos s' u
                      = lookupPos s u + (if u ∈ s.map Prod.fst then tDelta t u else 0) := by
                    rw [hsdef, lookupPos_filter_nonzero, applyTransferPos_eq_map,
                      lookupPos_map_shift s (tDelta t) u hnd]
                  have hdelta : planDelta (t :: rest) u
                      = ((if t.fromId = u then t.amount else 0)
                          - (if t.toId = u then t.amount else 0)) + planDelta rest u := by
                    simp [planDelta]
                  have hmatch : (if u ∈ s.map Prod.fst then tDelta t u else 0)
                      = (if t.fromId = u then t.amount else 0)
                        - (if t.toId = u then t.amount else 0) := by
                    by_cases hmem : u ∈ s.map Prod.fst
                    · rw [if_pos hmem]
                      unfold tDelta
                      by_cases h1 : t.toId = u
                      · have h2 : ¬ t.fromId = u := fun hf => htne (h1.trans hf.symm)
                        rw [if_pos h1.symm, if_pos h1, if_neg h2]
                        ring
                      · rw [if_neg (fun hu : u = t.toId => h1 hu.symm)]
                        by_cases h2 : t.fromId = u
                        · rw [if_pos h2.symm, if_pos h2, if_neg h1]
                          ring
                        · rw [if_neg (fun hu : u = t.fromId => h2 hu.symm),
                            if_neg h2, if_neg h1]
                          ring
                    · rw [if_neg hmem]
                      have h1 : ¬ t.toId = u := fun hh => hmem (hh ▸ hcmem)
                      have h2 : ¬ t.fromId = u := fun hh => hmem (hh ▸ hdmem)
                      rw [if_neg h2, if_neg h1]
                      ring
                  rw [hdelta]
                  rw [hshift, hmatch] at hih
                  omega

/-- C2 (amended): for every duplicate-free position snapshot whose net
positions sum to zero, reconciliation succeeds and executing every transfer
of the plan drives every per-user net position to exactly zero. -/
theorem reconcile_plan_zeroes_positions (positions : List (Nat × Int))
    (hnd : (positions.map Prod.fst).Nodup) (hsum : posSum positions = 0) :
    ∃ plan, reconcile positions = some plan
      ∧ ∀ u, lookupPos positions u + planDelta plan u = 0 := by
  have hnd' : (((positions.filter (fun p => p.2 ≠ 0)).map Prod.fst)).Nodup :=
    List.Nodup.sublist (List.Sublist.map _ (List.filter_sublist _)) hnd
  obtain ⟨plan, h1, _⟩ :=
    settleGo_complete (positions.filter (fun p => p.2 ≠ 0)).length
      (positions.filter (fun p => p.2 ≠ 0)) le_rfl hnd'
  refine ⟨plan, h1, fun u => ?_⟩
  have hz : ∀ p ∈ positions.filter (fun p => p.2 ≠ 0), p.2 ≠ 0 := by
    intro p hp
    have := (List.mem_filter.mp hp).2
    simpa using this
  have hsum' : posSum (positions.filter (fun p => p.2 ≠ 0)) = 0 := by
    rw [posSum_filter_nonzero]
    exact hsum
  have := settleGo_zeroes _ _ plan h1 hz hnd' hsum' u
  rwa [lookupPos_filter_nonzero] at this

/-- Witness for the amended C2 theorem at a concrete zero-sum snapshot. -/
theorem reconcile_plan_zeroes_positions_witness :
    ((([(1, -300), (2, 0), (3, 300)] : List (Nat × Int)).map Prod.fst).Nodup
      ∧ posSum [(1, -300), (2, 0), (3, 300)] = 0)
    ∧ ∃ plan, reconcile [(1, -300), (2, 0), (3, 300)] = some plan
        ∧ ∀ u, lookupPos [(1, -300), (2, 0), (3, 300)] u + planDelta plan u = 0 :=
  ⟨⟨by decide, by decide⟩,
   reconcile_plan_zeroes_positions [(1, -300), (2, 0), (3, 300)] (by decide) (by decide)⟩

/-- C2: the claim as stated is false for pairwise balances: in the cycle
snapshot where user 1 owes user 2, user 2 owes user 3 and user 3 owes
user 1, net positions sum to zero and the produced plan is the single
transfer of 300 from user 1 to user 3, yet after recording every plan
transfer as a settlement the pairwise balance between users 1 and 2 is
still 500, not zero. -/
theorem reconcile_settlements_leave_pairwise_balance :
    posSum (netPositionsOf [⟨1, 2, 500⟩, ⟨2, 3, 500⟩, ⟨3, 1, 200⟩]) = 0
    ∧ reconcile (netPositionsOf [⟨1, 2, 500⟩, ⟨2, 3, 500⟩, ⟨3, 1, 200⟩])
        = some [⟨1, 3, 300⟩]
    ∧ pairBalance (applyPlanAsSettlements [⟨1, 2, 500⟩, ⟨2, 3, 500⟩, ⟨3, 1, 200⟩]
        [⟨1, 3, 300⟩]) 1 2 = 500
    ∧ (500 : Int) ≠ 0 :=
  ⟨by decide, by decide, by decide, by decide⟩

/-! ## Reconciliation: determinism and tie-break (C5) -/

/-- Creditor selection only depends on the multiset of positions. -/
theorem pickCreditor_perm {s s' : List (Nat × Int)} (hp : s.Perm s') :
    pickCreditor s = pickCreditor s' :=
  pickBest_perm betterCreditor_asymm betterCreditor_trans betterCreditor_conn
    (hp.filter _)

/-- Debtor selection only depends on the multiset of positions. -/
theorem pickDebtor_perm {s s' : List (Nat × Int)} (hp : s.Perm s') :
    pickDebtor s = pickDebtor s' :=
  pickBest_perm betterDebtor_asymm betterDebtor_trans betterDebtor_conn
    (hp.filter _)

/-- The greedy loop only depends on the multiset of positions. -/
theorem settleGo_perm : ∀ (fuel : Nat) (s s' : List (Nat × Int)), s.Perm s' →
    settleGo fuel s = settleGo fuel s' := by
  intro fuel
  induction fuel with
  | zero =>
      intro s s' hp
      have hc := pickCreditor_perm hp
      have hd := pickDebtor_perm hp
      cases hcs : pickCreditor s with
      | none =>
          rw [settleGo_none_left 0 s hcs, settleGo_none_left 0 s' (hc.symm.trans hcs)]
      | some c =>
          cases hds : pickDebtor s with
          | none =>
              rw [settleGo_none_right 0 s hds,
                settleGo_none_right 0 s' (hd.symm.trans hds)]
          | some d =>
              rw [settleGo_zero_step s c d hcs hds,
                settleGo_zero_step s' c d (hc.symm.trans hcs) (hd.symm.trans hds)]
  | succ fuel ih =>
      intro s s' hp
      have hc := pickCreditor_perm hp
      have hd := pickDebtor_perm hp
      cases hcs : pickCreditor s with
      | none =>
          rw [settleGo_none_left _ s hcs, settleGo_none_left _ s' (hc.symm.trans hcs)]
      | some c =>
          cases hds : pickDebtor s with
          | none =>
              rw [settleGo_none_right _ s hds,
                settleGo_none_right _ s' (hd.symm.trans hds)]
          | some d =>
              rw [settleGo_succ_step fuel s c d hcs hds,
                settleGo_succ_step fuel s' c d (hc.symm.trans hcs) (hd.symm.trans hds)]
              have hstep : ((applyTransferPos s ⟨d.1, c.1, min c.2 (-d.2)⟩).filter
                    (fun p => p.2 ≠ 0)).Perm
                  ((applyTransferPos s' ⟨d.1, c.1, min c.2 (-d.2)⟩).filter
                    (fun p => p.2 ≠ 0)) :=
                (hp.map _).filter _
              rw [ih _ _ hstep]

/-- The chosen creditor has the lowest user id among equal top positions. -/
theorem pickCreditor_tiebreak {s : List (Nat × Int)} {c : Nat × Int}
    (h : pickCreditor s = some c) :
    ∀ x ∈ s, 0 < x.2 → x.2 = c.2 → c.1 ≤ x.1 := by
  intro x hx hpos heq
  have hb := pickBest_best betterCreditor_asymm betterCreditor_trans h x
    (List.mem_filter.mpr ⟨hx, by simpa using hpos⟩)
  unfold betterCreditor at hb
  omega

/-- The chosen debtor has the lowest user id among equal extreme
positions. -/
theorem pickDebtor_tiebreak {s : List (Nat × Int)} {d : Nat × Int}
    (h : pickDebtor s = some d) :
    ∀ x ∈ s, x.2 < 0 → x.2 = d.2 → d.1 ≤ x.1 := by
  intro x hx hneg heq
  have hb := pickBest_best betterDebtor_asymm betterDebtor_trans h x
    (List.mem_filter.mpr ⟨hx, by simpa using hneg⟩)
  unfold betterDebtor at hb
  omega

/-- C5: reconciliation is deterministic: two runs on equal input balances
(the same multiset of per-user positions) produce identical transfer lists,
element for element and in the same order; and on equal position magnitude
the selected creditor and debtor carry the lowest user id among the tied
candidates. -/
theorem reconcile_deterministic :
    (∀ positions₁ positions₂ : List (Nat × Int), positions₁.Perm positions₂ →
        reconcile positions₁ = reconcile positions₂)
    ∧ (∀ (s : List (Nat × Int)) (c : Nat × Int), pickCreditor s = some c →
        ∀ x ∈ s, 0 < x.2 → x.2 = c.2 → c.1 ≤ x.1)
    ∧ (∀ (s : List (Nat × Int)) (d : Nat × Int), pickDebtor s = some d →
        ∀ x ∈ s, x.2 < 0 → x.2 = d.2 → d.1 ≤ x.1) := by
  refine ⟨?_, fun s c h => pickCreditor_tiebreak h, fun s d h => pickDebtor_tiebreak h⟩
  intro p₁ p₂ hp
  have hf : (p₁.filter (fun p => p.2 ≠ 0)).Perm (p₂.filter (fun p => p.2 ≠ 0)) :=
    hp.filter _
  show settleGo (p₁.filter (fun p => p.2 ≠ 0)).length (p₁.filter (fun p => p.2 ≠ 0))
      = settleGo (p₂.filter (fun p => p.2 ≠ 0)).length (p₂.filter (fun p => p.2 ≠ 0))
  rw [hf.length_eq]
  exact settleGo_perm _ _ _ hf

/-- Witness for the C5 theorem: a reordered snapshot and a concrete tie. -/
theorem reconcile_deterministic_witness :
    (([(1, -300), (3, 300)] : List (Nat × Int)).Perm [(3, 300), (1, -300)]
      ∧ reconcile [(1, -300), (3, 300)] = reconcile [(3, 300), (1, -300)])
    ∧ (pickCreditor [(2, 300), (1, 300), (3, -600)] = some (1, 300)
      ∧ ((1, 300) : Nat × Int).1 ≤ ((2, 300) : Nat × Int).1) :=
  ⟨⟨by decide, reconcile_deterministic.1 _ _ (by decide)⟩,
   ⟨by decide,
     reconcile_deterministic.2.1 [(2, 300), (1, 300), (3, -600)] (1, 300) (by decide)
       (2, 300) (by decide) (by decide) (by decide)⟩⟩

/-! ## Date ordering lemmas (C9) -/

/-- Head characterisation of the lexicographic order. -/
theorem charListLt_cons_iff (a b : Char) (as bs : List Char) :
    charListLt (a :: as) (b :: bs) = true
      ↔ a < b ∨ (a = b ∧ charListLt as bs = true) := by
  simp only [charListLt]
  rcases lt_trichotomy a b with h | h | h
  · rw [if_pos h]
    simp [h]
  · have h1 : ¬ a < b := by rw [h]; exact lt_irrefl b
    have h2 : ¬ b < a := by rw [h]; exact lt_irrefl b
    rw [if_neg h1, if_neg h2]
    simp [h, h1]
  · have h1 : ¬ a < b := lt_asymm h
    rw [if_neg h1, if_pos h]
    constructor
    · intro hf; cases hf
    · intro hor
      rcases hor with h2 | ⟨h2, _⟩
      · exact absurd h2 h1
      · exact absurd h2 (ne_of_gt h)

/-- The lexicographic order on character lists is asymmetric. -/
theorem charListLt_asymm : ∀ (x y : List Char),
    charListLt x y = true → charListLt y x = false := by
  intro x
  induction x with
  | nil =>
      intro y h
      cases y with
      | nil => cases h
      | cons b bs => rfl
  | cons a as ih =>
      intro y h
      cases y with
      | nil => cases h
      | cons b bs =>
          rcases (charListLt_cons_iff a b as bs).mp h with h1 | ⟨h1, h2⟩
          · cases hyx : charListLt (b :: bs) (a :: as) with
            | false => rfl
            | true =>
                rcases (charListLt_cons_iff b a bs as).mp hyx with h3 | ⟨h3, _⟩
                · exact absurd h3 (lt_asymm h1)
                · exact absurd h1 (h3 ▸ lt_irrefl a)
          · cases hyx : charListLt (b :: bs) (a :: as) with
            | false => rfl
            | true =>
                rcases (charListLt_cons_iff b a bs as).mp hyx with h3 | ⟨h3, h4⟩
                · exact absurd h3 (h1 ▸ lt_irrefl a)
                · rw [ih bs h2] at h4
                  cases h4

/-- The lexicographic order on character lists is transitive. -/
theorem charListLt_trans : ∀ (x y z : List Char),
    charListLt x y = true → charListLt y z = true → charListLt x z = true := by
  intro x
  induction x with
  | nil =>
      intro y z h1 h2
      cases y with
      | nil => cases h1
      | cons b bs =>
          cases z with
          | nil => cases h2
          | cons c cs => rfl
  | cons a as ih =>
      intro y z h1 h2
      cases y with
      | nil => cases h1
      | cons b bs =>
          cases z with
          | nil => cases h2
          | cons c cs =>
              rcases (charListLt_cons_iff a b as bs).mp h1 with hab | ⟨hab, htab⟩ <;>
                rcases (charListLt_cons_iff b c bs cs).mp h2 with hbc | ⟨hbc, htbc⟩
              · exact (charListLt_cons_iff a c as cs).mpr (Or.inl (lt_trans hab hbc))
              · exact (charListLt_cons_iff a c as cs).mpr (Or.inl (hbc ▸ hab))
              · exact (charListLt_cons_iff a c as cs).mpr (Or.inl (hab ▸ hbc))
              · exact (charListLt_cons_iff a c as cs).mpr
                  (Or.inr ⟨hab.trans hbc, ih bs cs htab htbc⟩)

/-- The lexicographic order relates any two distinct character lists. -/
theorem charListLt_conn : ∀ (x y : List Char), x ≠ y →
    charListLt x y = true ∨ charListLt y x = true := by
  intro x
  induction x with
  | nil =>
      intro y hne
      cases y with
      | nil => exact absurd rfl hne
      | cons b bs => exact Or.inl rfl
  | cons a as ih =>
      intro y hne
      cases y with
      | nil => exact Or.inr rfl
      | cons b bs =>
          rcases lt_trichotomy a b with h | h | h
          · exact Or.inl ((charListLt_cons_iff a b as bs).mpr (Or.inl h))
          · have htne : as ≠ bs := fun hh => hne (by rw [h, hh])
            rcases ih bs htne with h1 | h1
            · exact Or.inl ((charListLt_cons_iff a b as bs).mpr (Or.inr ⟨h, h1⟩))
            · exact Or.inr ((charListLt_cons_iff b a bs as).mpr (Or.inr ⟨h.symm, h1⟩))
          · exact Or.inr ((charListLt_cons_iff b a bs as).mpr (Or.inl h))

/-- The string order is asymmetric. -/
theorem strLt_asymm (x y : String) (h : strLt x y = true) : strLt y x = false :=
  charListLt_asymm x.data y.data h

/-- The string order is transitive. -/
theorem strLt_trans (x y z : String) (h1 : strLt x y = true) (h2 : strLt y z = true) :
    strLt x z = true :=
  charListLt_trans x.data y.data z.data h1 h2

/-- The string order relates any two distinct strings. -/
theorem strLt_conn (x y : String) (hne : x ≠ y) :
    strLt x y = true ∨ strLt y x = true :=
  charListLt_conn x.data y.data (fun h => hne (String.ext h))

/-- The descending date comparator of groupExpensesByDate is transitive. -/
theorem dateGe_trans (a b c : String × List Expense) :
    (!(strLt a.1 b.1)) = true → (!(strLt b.1 c.1)) = true → (!(strLt a.1 c.1)) = true := by
  simp only [Bool.not_eq_true']
  intro h1 h2
  cases hac : strLt a.1 c.1 with
  | false => rfl
  | true =>
      exfalso
      by_cases hab : a.1 = b.1
      · rw [hab] at hac
        rw [hac] at h2
        cases h2
      · rcases strLt_conn a.1 b.1 hab with h3 | h3
        · rw [h3] at h1; cases h1
        · have := strLt_trans b.1 a.1 c.1 h3 hac
          rw [this] at h2
          cases h2

/-- The descending date comparator of groupExpensesByDate is total. -/
theorem dateGe_total (a b : String × List Expense) :
    ((!(strLt a.1 b.1)) || (!(strLt b.1 a.1))) = true := by
  simp only [Bool.not_eq_true', Bool.or_eq_true]
  cases hab : strLt a.1 b.1 with
  | false => exact Or.inl rfl
  | true => exact Or.inr (strLt_asymm a.1 b.1 hab)

/-! ## Grouping lemmas (C9) -/

/-- Inserting an expense extends the key sequence exactly when its date is
new, and then at the end. -/
theorem addToGroups_keys (gs : List (String × List Expense)) (e : Expense) :
    (addToGroups gs e).map Prod.fst
      = if e.date ∈ gs.map Prod.fst then gs.map Prod.fst
        else gs.map Prod.fst ++ [e.date] := by
  induction gs with
  | nil => simp [addToGroups]
  | cons p rest ih =>
      obtain ⟨d, es⟩ := p
      simp only [addToGroups]
      by_cases hd : d = e.date
      · rw [if_pos hd]
        have hm : e.date ∈ (d, es).1 :: rest.map Prod.fst :=
          List.mem_cons.mpr (Or.inl hd.symm)
        simp only [List.map_cons]
        rw [if_pos hm]
      · rw [if_neg hd]
        simp only [List.map_cons, ih]
        by_cases hm : e.date ∈ rest.map Prod.fst
        · rw [if_pos hm, if_pos (List.mem_cons_of_mem _ hm)]
        · rw [if_neg hm, if_neg ?_]
          · rfl
          · intro hmem
            rcases List.mem_cons.mp hmem with h1 | h1
            · exact hd h1.symm
            · exact hm h1

/-- Inserting an expense keeps the key sequence duplicate-free. -/
theorem addToGroups_keys_nodup (gs : List (String × List Expense)) (e : Expense)
    (h : (gs.map Prod.fst).Nodup) : ((addToGroups gs e).map Prod.fst).Nodup := by
  rw [addToGroups_keys]
  by_cases hm : e.date ∈ gs.map Prod.fst
  · rw [if_pos hm]; exact h
  · rw [if_neg hm]
    rw [List.nodup_append]
    refine ⟨h, List.nodup_singleton _, ?_⟩
    intro a ha hb
    rw [List.mem_singleton] at hb
    exact hm (hb ▸ ha)

/-- Inserting an expense keeps every bucket member on the date of its bucket. -/
theorem addToGroups_dates (gs : List (String × List Expense)) (e : Expense)
    (h : ∀ g ∈ gs, ∀ x ∈ g.2, x.date = g.1) :
    ∀ g ∈ addToGroups gs e, ∀ x ∈ g.2, x.date = g.1 := by
  induction gs with
  | nil =>
      intro g hg x hx
      simp only [addToGroups] at hg
      rcases List.mem_singleton.mp hg with rfl
      rcases List.mem_singleton.mp hx with rfl
      rfl
  | cons p rest ih =>
      obtain ⟨d, es⟩ := p
      intro g hg x hx
      simp only [addToGroups] at hg
      by_cases hd : d = e.date
      · rw [if_pos hd] at hg
        rcases List.mem_cons.mp hg with h1 | h1
        · subst h1
          rcases List.mem_append.mp hx with h2 | h2
          · exact h (d, es) (List.mem_cons_self _ _) x h2
          · rcases List.mem_singleton.mp h2 with rfl
            exact hd.symm
        · exact h g (List.mem_cons_of_mem _ h1) x hx
      · rw [if_neg hd] at hg
        rcases List.mem_cons.mp hg with h1 | h1
        · subst h1
          exact h (d, es) (List.mem_cons_self _ _) x hx
        · exact ih (fun g' hg' => h g' (List.mem_cons_of_mem _ hg')) g h1 x hx

/-- Inserting an expense appends it to the flattened contents, up to
permutation. -/
theorem addToGroups_flat (gs : List (String × List Expense)) (e : Expense) :
    ((addToGroups gs e).flatMap Prod.snd).Perm ((gs.flatMap Prod.snd) ++ [e]) := by
  induction gs with
  | nil => simp [addToGroups]
  | cons p rest ih =>
      obtain ⟨d, es⟩ := p
      simp only [addToGroups]
      by_cases hd : d = e.date
      · rw [if_pos hd]
        simp only [List.flatMap_cons]
        rw [List.append_assoc es [e] (rest.flatMap Prod.snd),
          List.append_assoc es (rest.flatMap Prod.snd) [e]]
        exact List.Perm.append_left es List.perm_append_comm
      · rw [if_neg hd]
        simp only [List.flatMap_cons]
        rw [List.append_assoc es (rest.flatMap Prod.snd) [e]]
        exact List.Perm.append_left es ih

/-- Folding the whole expense list appends its elements to the flattened
contents, up to permutation. -/
theorem foldl_groups_flat (es : List Expense) :
    ∀ gs : List (String × List Expense),
      ((es.foldl addToGroups gs).flatMap Prod.snd).Perm ((gs.flatMap Prod.snd) ++ es) := by
  induction es with
  | nil => intro gs; simp
  | cons a as ih =>
      intro gs
      simp only [List.foldl_cons]
      have h1 := ih (addToGroups gs a)
      have h2 : (((addToGroups gs a).flatMap Prod.snd) ++ as).Perm
          (((gs.flatMap Prod.snd) ++ [a]) ++ as) :=
        (addToGroups_flat gs a).append_right as
      have h3 := h1.trans h2
      rw [List.append_assoc] at h3
      simpa using h3

/-- Folding keeps the key sequence duplicate-free. -/
theorem foldl_groups_nodup (es : List Expense) :
    ∀ gs : List (String × List Expense), (gs.map Prod.fst).Nodup →
      ((es.foldl addToGroups gs).map Prod.fst).Nodup := by
  induction es with
  | nil => intro gs h; exact h
  | cons a as ih =>
      intro gs h
      simp only [List.foldl_cons]
      exact ih _ (addToGroups_keys_nodup gs a h)

/-- Folding keeps every bucket member on the date of its bucket. -/
theorem foldl_groups_dates (es : List Expense) :
    ∀ gs : List (String × List Expense), (∀ g ∈ gs, ∀ x ∈ g.2, x.date = g.1) →
      ∀ g ∈ es.foldl addToGroups gs, ∀ x ∈ g.2, x.date = g.1 := by
  induction es with
  | nil => intro gs h; exact h
  | cons a as ih =>
      intro gs h
      simp only [List.foldl_cons]
      exact ih _ (addToGroups_dates gs a h)

/-- C9: groupExpensesByDate returns its date groups in strictly descending
date order; the groups together contain exactly the input expenses (up to
permutation of the flattened contents); and every expense sits in the group
of its own date. -/
theorem groupExpensesByDate_ordered_partition (es : List Expense) :
    ((groupExpensesByDate es).Pairwise (fun a b => strLt b.1 a.1 = true))
    ∧ ((groupExpensesByDate es).flatMap Prod.snd).Perm es
    ∧ (∀ g ∈ groupExpensesByDate es, ∀ e ∈ g.2, e.date = g.1) := by
  have hperm : (groupExpensesByDate es).Perm (es.foldl addToGroups []) :=
    List.mergeSort_perm (es.foldl addToGroups []) _
  have hnodup : ((es.foldl addToGroups []).map Prod.fst).Nodup :=
    foldl_groups_nodup es [] (by simp)
  have hnodup' : ((groupExpensesByDate es).map Prod.fst).Nodup :=
    ((hperm.map Prod.fst).nodup_iff).mpr hnodup
  have hsorted : (groupExpensesByDate es).Pairwise
      (fun a b => (!(strLt a.1 b.1)) = true) :=
    List.sorted_mergeSort dateGe_trans dateGe_total (es.foldl addToGroups [])
  have hne : (groupExpensesByDate es).Pairwise (fun a b => a.1 ≠ b.1) :=
    (List.pairwise_map).mp hnodup'
  refine ⟨?_, ?_, ?_⟩
  · refine (hsorted.and hne).imp ?_
    intro a b hab
    rcases hab with ⟨h1, h2⟩
    rw [Bool.not_eq_true'] at h1
    rcases strLt_conn a.1 b.1 h2 with h3 | h3
    · rw [h3] at h1; cases h1
    · exact h3
  · have h1 : ((groupExpensesByDate es).flatMap Prod.snd).Perm
        ((es.foldl addToGroups []).flatMap Prod.snd) :=
      List.Perm.flatMap_right Prod.snd hperm
    have h2 := foldl_groups_flat es []
    simp only [List.flatMap_nil, List.nil_append] at h2
    exact h1.trans h2
  · intro g hg e he
    exact foldl_groups_dates es [] (by intro g' hg'; cases hg') g
      (hperm.subset hg) e he

/-- Witness for the C9 theorem at the mock expense list. -/
theorem groupExpensesByDate_ordered_partition_witness :
    ((groupExpensesByDate mockExpenses).Pairwise (fun a b => strLt b.1 a.1 = true))
    ∧ ((groupExpensesByDate mockExpenses).flatMap Prod.snd).Perm mockExpenses :=
  ⟨(groupExpensesByDate_ordered_partition mockExpenses).1,
   (groupExpensesByDate_ordered_partition mockExpenses).2.1⟩

end SplitwiseAI
